import Mathlib

/-!
Shallow embedding of `mdp/nodes/classifier_nodes.py` (MDP toolkit classifier
nodes).  Numeric values are modelled as exact rationals (`ℚ`); real-valued
transcendental quantities of the Gaussian classifier as `ℝ`.  Python dicts are
modelled as association lists in insertion order, numpy arrays as lists or as
functions out of `Fin n`.  Fallible operations (Python exceptions) return
`Except String`.
-/

/-- `numx.sign`: 1 on positives, -1 on negatives, 0 at 0. -/
def sgn (q : ℚ) : ℚ :=
if 0 < q then 1 else if q < 0 then -1 else 0

/-- The `labels` argument of `train`: either a single label broadcast over the
whole batch or one label per row. -/
inductive LabelsArg (L : Type) where
| scalar (l : L)
| seq (ls : List L)

/-- Modelled from the spec: `mdp.utils.izip_stretched` ("stretched zip") is not
part of the source file; per the spec it pairs two sequences by repeating the
shorter one's last element to match the longer (a scalar label is broadcast
across all rows). -/
def stretchedZip {A B : Type} : List A → List B → List (A × B)
| [], _ => []
| _, [] => []
| x :: xs, [y] => (x, y) :: stretchedZip xs [y]
| x :: xs, y :: y' :: ys => (x, y) :: stretchedZip xs (y' :: ys)

/-- View of a `labels` argument as the list fed to the stretched zip. -/
def LabelsArg.toList {L : Type} : LabelsArg L → List L
| .scalar l => [l]
| .seq ls => ls

/-- Whether `labels` is a Python `list`/`tuple`/`ndarray` (the branch tested by
`_check_train_args` via `isinstance`). -/
def LabelsArg.isSeq {L : Type} : LabelsArg L → Bool
| .scalar _ => false
| .seq _ => true

/-- Error message of the label-count/datapoint-count mismatch (the numeric
parts of the Python format string are omitted). -/
def lenMismatchMsg : String :=
"The number of labels should be equal to the number of datapoints"

/-- Dot product of two equally long vectors (`numx.dot` on 1-d arrays). -/
def dotl (a b : List ℚ) : ℚ := (List.zipWith (fun x y => x * y) a b).sum

/-! ## PerceptronClassifier -/

/-- Mutable state of `PerceptronClassifier`: `weights`, `offset_weight`
(the bias) and the constant `learning_rate` (0.1 in `__init__`). -/
structure PState where
  weights : List ℚ
  offset_weight : ℚ
  learning_rate : ℚ
deriving DecidableEq, Repr

/-- `PerceptronClassifier.__init__`: empty weights, zero offset, rate 0.1. -/
def pInit : PState := ⟨[], 0, 1/10⟩

/-- `PerceptronClassifier._label` on a single row:
`sign(dot(x, weights) + offset_weight)`. -/
def pLabelOne (st : PState) (x : List ℚ) : ℚ :=
sgn (dotl x st.weights + st.offset_weight)

/-- One iteration of the training loop of `PerceptronClassifier._train`:
`rate = learning_rate * (label - sign(dot(w, x) + offset))`, then
`weights[j] += rate * x[j]` for every `j` and `offset += rate`.
(The Python loop writes through an alias of `self.weights`, but `rate` and
each `self.weights[j]` are read before index `j` is written, so the step is a
simultaneous update from the pre-step weights.) -/
def pStep (st : PState) (xl : List ℚ × ℚ) : PState :=
  let rate := st.learning_rate * (xl.2 - pLabelOne st xl.1)
  { st with
    weights := List.zipWith (fun w xi => w + rate * xi) st.weights xl.1
    offset_weight := st.offset_weight + rate }

/-- `PerceptronClassifier._train`: initialise `weights` to all ones when they
are still empty, then fold the per-sample update over the stretched zip of the
batch with the labels.  `d` is the node's `input_dim`. -/
def pTrainRaw (st : PState) (d : ℕ) (x : List (List ℚ)) (labels : List ℚ) :
    PState :=
  let st0 := if st.weights = [] then { st with weights := List.replicate d 1 }
             else st
  (stretchedZip x labels).foldl pStep st0

/-- `PerceptronClassifier._check_train_args`: a sequence of labels must be as
long as the batch; every label must have absolute value 1. -/
def pCheckTrainArgs (x : List (List ℚ)) (labels : LabelsArg ℚ) :
    Except String Unit :=
  if labels.isSeq ∧ labels.toList.length ≠ x.length then
    .error lenMismatchMsg
  else if ¬ (labels.toList.all (fun l => |l| = 1)) then
    .error "The labels must be either -1 or 1."
  else .ok ()

/-- Modelled from the spec: the shared classifier contract runs
`_check_train_args` before `_train` ("Violation raises a TrainingError …
before any mutation occurs"); the dispatching `Node.train` is not part of the
source file. -/
def pTrain (st : PState) (d : ℕ) (x : List (List ℚ)) (labels : LabelsArg ℚ) :
    Except String PState := do
  pCheckTrainArgs x labels
  pure (pTrainRaw st d x labels.toList)

/-! ## SimpleMarkovClassifier

Python dicts are modelled as association lists in insertion order. -/

/-- Dict read: value of the first entry with the given key. -/
def alookup {K V : Type} [DecidableEq K] : List (K × V) → K → Option V
| [], _ => none
| (k', v) :: rest, k => if k = k' then some v else alookup rest k

/-- `d[k] += 1` with `d[k] = 1` when the key is new (the
`if k in d: d[k] += 1 else: d[k] = 1` idiom of `_learn`). -/
def abump {K : Type} [DecidableEq K] : List (K × ℕ) → K → List (K × ℕ)
| [], k => [(k, 1)]
| (k', v) :: rest, k =>
    if k = k' then (k', v + 1) :: rest else (k', v) :: abump rest k

/-- Mutable state of `SimpleMarkovClassifier`: total connection count and the
three count dicts (`features`, `labels`, `connections`).  Feature keys are the
tuples of the query rows; the label type `L` is any discrete type. -/
structure MState (L : Type) where
  ntotal_connections : ℕ
  features : List (List ℚ × ℕ)
  labels : List (L × ℕ)
  connections : List ((List ℚ × L) × ℕ)
deriving DecidableEq

/-- `SimpleMarkovClassifier.__init__`. -/
def mInit (L : Type) : MState L := ⟨0, [], [], []⟩

/-- `SimpleMarkovClassifier._learn`: increment the total count and bump all
three dicts at the observed feature, label and (feature, label) pair. -/
def mLearn {L : Type} [DecidableEq L] (st : MState L) (feature : List ℚ)
    (label : L) : MState L :=
  { ntotal_connections := st.ntotal_connections + 1
    labels := abump st.labels label
    features := abump st.features feature
    connections := abump st.connections (feature, label) }

/-- A full training history: every (feature, label) pair ever passed to
`_learn`, in order. -/
def mTrainPairs {L : Type} [DecidableEq L] (pairs : List (List ℚ × L)) :
    MState L :=
  pairs.foldl (fun s p => mLearn s p.1 p.2) (mInit L)

/-- `SimpleMarkovClassifier._train`: `_learn` on each element of the stretched
zip of the batch with the labels. -/
def mTrainRaw {L : Type} [DecidableEq L] (st : MState L) (x : List (List ℚ))
    (labels : List L) : MState L :=
  (stretchedZip x labels).foldl (fun s p => mLearn s p.1 p.2) st

/-- `SimpleMarkovClassifier._check_train_args`: a sequence of labels must be
as long as the batch. -/
def mCheckTrainArgs {L : Type} (x : List (List ℚ)) (labels : LabelsArg L) :
    Except String Unit :=
  if labels.isSeq ∧ labels.toList.length ≠ x.length then
    .error lenMismatchMsg
  else .ok ()

/-- Modelled from the spec: `Node.train` runs `_check_train_args` before
`_train` (see `pTrain`). -/
def mTrain {L : Type} [DecidableEq L] (st : MState L) (x : List (List ℚ))
    (labels : LabelsArg L) : Except String (MState L) := do
  mCheckTrainArgs x labels
  pure (mTrainRaw st x labels.toList)

/-- Loop body of `SimpleMarkovClassifier._prob_one` for one observed label
entry `lc` (the `for label in self.labels` loop).  Every Python division is
guarded: a zero denominator is a `ZeroDivisionError`. -/
def mProbBody {L : Type} [DecidableEq L] (st : MState L) (feature : List ℚ)
    (nF : ℕ) (lc : L × ℕ) : Except String (L × ℚ) := do
  let n_conn : ℕ := (alookup st.connections (feature, lc.1)).getD 0
  let n_label : ℕ := (alookup st.labels lc.1).getD 0
  let p_feature_given_label ←
    if n_label = 0 then Except.error "ZeroDivisionError"
    else Except.ok ((n_conn : ℚ) / (n_label : ℚ))
  let p_label ←
    if st.ntotal_connections = 0 then Except.error "ZeroDivisionError"
    else Except.ok ((n_label : ℚ) / (st.ntotal_connections : ℚ))
  let p_feature ←
    if st.ntotal_connections = 0 then Except.error "ZeroDivisionError"
    else Except.ok ((nF : ℚ) / (st.ntotal_connections : ℚ))
  let prob ←
    if p_feature = 0 then Except.error "ZeroDivisionError"
    else Except.ok (p_feature_given_label * p_label / p_feature)
  pure (lc.1, prob)

/-- `SimpleMarkovClassifier._prob_one`.  A read-only query: it takes the state
and returns only the probability dict, so the classifier state is unchanged by
construction.  An unseen feature returns the empty dict before any division is
reached. -/
def mProbOne {L : Type} [DecidableEq L] (st : MState L) (feature : List ℚ) :
    Except String (List (L × ℚ)) :=
  match alookup st.features feature with
  | none => .ok []
  | some nF => st.labels.mapM (mProbBody st feature nF)

/-- The invariants of a reachable `SimpleMarkovClassifier` state: every count
stored in the label dict is at least 1, and every count stored in the feature
dict is at least 1 and at most the total connection count. -/
def MInv {L : Type} [DecidableEq L] (st : MState L) : Prop :=
  (∀ l c, alookup st.labels l = some c → 1 ≤ c) ∧
  (∀ f n, alookup st.features f = some n →
    1 ≤ n ∧ n ≤ st.ntotal_connections)

/-- The count dicts read as total functions (0 when absent), cast to `ℚ`:
`joint_counts[(feature, label)]`, `label_counts[label]`,
`feature_counts[feature]` of the claims. -/
def jointD {L : Type} [DecidableEq L] (st : MState L) (f : List ℚ) (l : L) :
    ℚ := ((alookup st.connections (f, l)).getD 0 : ℕ)

/-- `label_counts[label]` as a rational (0 when absent). -/
def labelD {L : Type} [DecidableEq L] (st : MState L) (l : L) : ℚ :=
  ((alookup st.labels l).getD 0 : ℕ)

/-- `feature_counts[feature]` as a rational (0 when absent). -/
def featD {L : Type} [DecidableEq L] (st : MState L) (f : List ℚ) : ℚ :=
  ((alookup st.features f).getD 0 : ℕ)

/-! ## KMeansClassifier

Rows are lists of rationals.  `self.data` is stored flattened in Python and
reshaped back to rows at `_stop_training`; the model keeps the row list. -/

/-- Squared Euclidean distance.  `_nearest_centroid_idx` compares
`numx.linalg.norm(data - c)` values; the square root is strictly monotone on
nonnegatives, so minimum positions and the first-minimum tie-break computed on
squared distances agree with those computed on norms. -/
def dist_sq (a b : List ℚ) : ℚ :=
  (List.zipWith (fun x y => (x - y) ^ 2) a b).sum

/-- `numpy.argmin`: index of the first minimal element (0 on the empty
list, where numpy raises instead; never reached with a positive number of
centroids). -/
def argmin_first : List ℚ → ℕ
| [] => 0
| v :: vs =>
    if vs = [] then 0
    else if v ≤ vs.getD (argmin_first vs) 0 then 0 else argmin_first vs + 1

/-- `KMeansClassifier._nearest_centroid_idx`. -/
def nearest_centroid_idx (data : List ℚ) (centroids : List (List ℚ)) : ℕ :=
  argmin_first (centroids.map (fun c => dist_sq data c))

/-- Accumulating a row into a `(sum_position, num_samples)` pair.  The Python
sum starts from the scalar `0.`, which numpy broadcasts on the first vector
addition; `none` models the not-yet-a-vector start. -/
def osum : Option (List ℚ) → List ℚ → Option (List ℚ)
| none, x => some x
| some v, x => some (List.zipWith (fun a b => a + b) v x)

/-- Sum of a list of rows (`none` when the list is empty). -/
def vsum (l : List (List ℚ)) : Option (List ℚ) := l.foldl osum none

/-- Clustering half of one Lloyd iteration of `_stop_training`: fold each row
into the `(sum, count)` slot of its nearest centroid. -/
def kacc (centroids : List (List ℚ)) (acc : List (Option (List ℚ) × ℕ))
    (x : List ℚ) : List (Option (List ℚ) × ℕ) :=
  let idx := nearest_centroid_idx x centroids
  acc.set idx
    (osum (acc.getD idx (none, 0)).1 x, (acc.getD idx (none, 0)).2 + 1)

/-- One full iteration of the Lloyd loop of `KMeansClassifier._stop_training`:
cluster all rows, then set each centroid to `sum / count` when its count is
positive and keep the previous centroid otherwise. -/
def kmeans_step (data : List (List ℚ)) (centroids : List (List ℚ)) :
    List (List ℚ) :=
  let accs := data.foldl (kacc centroids)
    (List.replicate centroids.length (none, 0))
  (List.range centroids.length).map (fun i =>
    let c := accs.getD i (none, 0)
    if 0 < c.2 then (c.1.getD []).map (fun a => a / (c.2 : ℚ))
    else centroids.getD i [])

/-- The `for step in xrange(self.max_iter)` loop: iterate `kmeans_step` until
two consecutive centroid arrays are exactly equal (returning the stabilised
centroids) or the iteration budget runs out (returning `none`: the loop falls
through without assigning `self._centroids`). -/
def lloyd (data : List (List ℚ)) : ℕ → List (List ℚ) →
    Option (List (List ℚ))
| 0, _ => none
| fuel + 1, cs =>
    let ncs := kmeans_step data cs
    if ncs = cs then some cs else lloyd data fuel ncs

/-- Mutable state of `KMeansClassifier`. -/
structure KState where
  num_clusters : ℕ
  max_iter : ℕ
  data : List (List ℚ)
  tlen : ℕ
  centroids : Option (List (List ℚ))
deriving DecidableEq

/-- `KMeansClassifier.__init__`: no data, `_centroids = None`. -/
def kInit (k mi : ℕ) : KState := ⟨k, mi, [], 0, none⟩

/-- `KMeansClassifier._train`: append all rows, update `tlen`. -/
def kTrain (st : KState) (x : List (List ℚ)) : KState :=
  { st with tlen := st.tlen + x.length, data := st.data ++ x }

/-- Python truthiness of `not self._centroids`: `None` is falsy (so `not`
gives `true`); a numpy array with more than one element raises `ValueError`;
a one-element array is falsy exactly when that element is zero; an empty
array is falsy. -/
def centroidsNotTruthy (c : Option (List (List ℚ))) : Except String Bool :=
  match c with
  | none => .ok true
  | some cs =>
      let sz := (cs.map List.length).sum
      if 1 < sz then
        .error "ValueError: The truth value of an array with more than one element is ambiguous"
      else if sz = 1 then .ok (decide (cs.flatten.getD 0 0 = 0))
      else .ok true

/-- `KMeansClassifier._stop_training`.  `seedIdx` models the indices drawn by
`random.sample(xrange(self.tlen), self._num_clusters)` (distinct indices below
`tlen` chosen by the global RNG), passed explicitly so the randomness is
injectable.  When the Lloyd loop exhausts `max_iter` without two consecutive
centroid arrays being equal, the method returns with `self._centroids`
untouched. -/
def kStop (st : KState) (seedIdx : List ℕ) : Except String KState := do
  let reseed ← centroidsNotTruthy st.centroids
  let cs0 := if reseed then seedIdx.map (fun i => st.data.getD i [])
             else st.centroids.getD []
  match lloyd st.data st.max_iter cs0 with
  | some c => pure { st with centroids := some c }
  | none => pure st

/-- `KMeansClassifier._label` on one row: `_nearest_centroid_idx(xi,
self._centroids)`; with `self._centroids = None` the Python comprehension
`for c in centroids` raises a `TypeError`. -/
def kLabelOne (st : KState) (x : List ℚ) : Except String ℕ :=
  match st.centroids with
  | none => .error "TypeError: NoneType object is not iterable"
  | some cs => .ok (nearest_centroid_idx x cs)

/-! ## GaussianClassifierNode -/

/-- Modelled from the spec: `mdp.utils.CovarianceMatrix` is not part of the
source file; per the spec it keeps "running sufficient statistics (sum,
sum-of-outer-products, count)". -/
structure CovAcc (d : ℕ) where
  sumOuter : Matrix (Fin d) (Fin d) ℚ
  sumVec : Fin d → ℚ
  count : ℕ

/-- A fresh accumulator (`utils.CovarianceMatrix(dtype=...)`). -/
def covInit (d : ℕ) : CovAcc d := ⟨0, 0, 0⟩

/-- Modelled from the spec: `CovarianceMatrix.update` folds every row of the
batch into the streaming sums. -/
def covUpdate {d : ℕ} (acc : CovAcc d) (x : List (Fin d → ℚ)) : CovAcc d :=
  x.foldl (fun a r =>
    { sumOuter := a.sumOuter + Matrix.vecMulVec r r
      sumVec := a.sumVec + r
      count := a.count + 1 }) acc

/-- Modelled from the spec: `CovarianceMatrix.fix` derives
`(covariance, mean, count)` from the sufficient statistics (mean = sum/count,
covariance = second moment minus outer product of the mean). -/
def covFix {d : ℕ} (acc : CovAcc d) :
    Matrix (Fin d) (Fin d) ℚ × (Fin d → ℚ) × ℕ :=
  let mean := fun i => acc.sumVec i / (acc.count : ℚ)
  (Matrix.of (fun i j => acc.sumOuter i j / (acc.count : ℚ) - mean i * mean j),
    mean, acc.count)

/-- Dict write: replace the value of the first entry with the given key, or
append a new entry. -/
def aset {K V : Type} [DecidableEq K] : List (K × V) → K → V → List (K × V)
| [], k, v => [(k, v)]
| (k', v') :: rest, k, v =>
    if k = k' then (k', v) :: rest else (k', v') :: aset rest k v

/-- Mutable state of `GaussianClassifierNode`: the per-label accumulator dict
(`None` once `_stop_training` has executed `del self.cov_objs`) and the
derived inference arrays filled in by `_stop_training`. -/
structure GState (d : ℕ) (L : Type) where
  cov_objs : Option (List (L × CovAcc d))
  labels : List L
  inv_covs : List (Matrix (Fin d) (Fin d) ℝ)
  means : List (Fin d → ℚ)
  p : List ℚ
  sqrt_def_covs : List ℝ

/-- `GaussianClassifierNode.__init__`: an empty accumulator dict. -/
def gInit (d : ℕ) (L : Type) : GState d L := ⟨some [], [], [], [], [], []⟩

/-- `GaussianClassifierNode._update_covs`: create the accumulator of a new
label, then feed it the batch.  Accessing `self.cov_objs` after
`_stop_training` deleted it raises an `AttributeError`. -/
def gUpdateCovs {d : ℕ} {L : Type} [DecidableEq L] (st : GState d L)
    (x : List (Fin d → ℚ)) (lbl : L) : Except String (GState d L) :=
  match st.cov_objs with
  | none => .error "AttributeError: cov_objs"
  | some m =>
      let acc := covUpdate ((alookup m lbl).getD (covInit d)) x
      .ok { st with cov_objs := some (aset m lbl acc) }

/-- `GaussianClassifierNode._train`: a scalar label feeds the whole batch to
one accumulator; a label sequence partitions the batch by the distinct labels
of this call (`numx.compress(labels_ == lbl, x)`).  Python iterates
`set(labels_)` in unspecified order; the model uses first-appearance order,
which touches each per-label accumulator identically. -/
def gTrainRaw {d : ℕ} {L : Type} [DecidableEq L] (st : GState d L)
    (x : List (Fin d → ℚ)) (labels : LabelsArg L) :
    Except String (GState d L) :=
  match labels with
  | .scalar l => gUpdateCovs st x l
  | .seq ls =>
      ls.dedup.foldlM (fun s lbl =>
        gUpdateCovs s
          ((x.zip ls).filterMap
            (fun pr => if pr.2 = lbl then some pr.1 else none)) lbl) st

/-- `GaussianClassifierNode._check_train_args`: a sequence of labels must be
as long as the batch. -/
def gCheckTrainArgs {d : ℕ} {L : Type} (x : List (Fin d → ℚ))
    (labels : LabelsArg L) : Except String Unit :=
  if labels.isSeq ∧ labels.toList.length ≠ x.length then
    .error lenMismatchMsg
  else .ok ()

/-- Modelled from the spec: `Node.train` runs `_check_train_args` before
`_train` (see `pTrain`). -/
def gTrain {d : ℕ} {L : Type} [DecidableEq L] (st : GState d L)
    (x : List (Fin d → ℚ)) (labels : LabelsArg L) :
    Except String (GState d L) := do
  gCheckTrainArgs x labels
  gTrainRaw st x labels

/-- Insertion into a sorted list (ingredient of `self.labels.sort()`). -/
def insertSorted {L : Type} [LinearOrder L] (l : L) : List L → List L
| [] => [l]
| a :: rest => if l ≤ a then l :: a :: rest else a :: insertSorted l rest

/-- `list.sort()` as insertion sort. -/
def sortList {L : Type} [LinearOrder L] (ls : List L) : List L :=
  ls.foldl (fun acc l => insertSorted l acc) []

/-- `utils.inv` on the covariance matrix, over `ℝ`. -/
noncomputable def matInv {d : ℕ} (A : Matrix (Fin d) (Fin d) ℝ) :
    Matrix (Fin d) (Fin d) ℝ := A⁻¹

/-- `GaussianClassifierNode._stop_training`: sort the observed labels, fix
each accumulator into covariance/mean/count, store the square roots of the
determinants, the means, the inverse covariances and the normalised priors,
then `del self.cov_objs` (modelled by `cov_objs := none`).  A second call
finds `cov_objs` deleted and raises an `AttributeError`. -/
noncomputable def gStop {d : ℕ} {L : Type} [DecidableEq L] [LinearOrder L]
    (st : GState d L) : Except String (GState d L) :=
  match st.cov_objs with
  | none => .error "AttributeError: cov_objs"
  | some m =>
      let labels := sortList (m.map Prod.fst)
      let fixes := labels.map (fun lbl =>
        covFix ((alookup m lbl).getD (covInit d)))
      let nitems : ℕ := (fixes.map (fun t => t.2.2)).sum
      .ok { cov_objs := none
            labels := labels
            inv_covs := fixes.map (fun t =>
              matInv (t.1.map (fun q => (q : ℝ))))
            means := fixes.map (fun t => t.2.1)
            p := fixes.map (fun t => (t.2.2 : ℚ) / (nitems : ℚ))
            sqrt_def_covs := fixes.map (fun t =>
              Real.sqrt ((t.1.map (fun q => (q : ℝ))).det)) }

/-- Read-only inference view of a finalized `GaussianClassifierNode`: the
arrays `_stop_training` derives, indexed by the canonical label order
(`nlabels = len(self.labels)`). -/
structure GaussView (d : ℕ) where
  nlabels : ℕ
  means : Fin nlabels → Fin d → ℝ
  inv_covs : Fin nlabels → Matrix (Fin d) (Fin d) ℝ
  sqrt_def_covs : Fin nlabels → ℝ
  p : Fin nlabels → ℝ

/-- `GaussianClassifierNode._gaussian_prob` on a single row:
`exp(-0.5 * (x - mean) · invS · (x - mean)) * (2π)^(-dim/2) / sqrt_detS`. -/
noncomputable def gaussianProb {d : ℕ} (g : GaussView d) (x : Fin d → ℝ)
    (i : Fin g.nlabels) : ℝ :=
  let x_mn := fun j => x j - g.means i j
  let expo := -(1/2 : ℝ) * ∑ j, (∑ k, x_mn k * g.inv_covs i k j) * x_mn j
  let c := (2 * Real.pi) ^ (-((d : ℝ) / 2)) / g.sqrt_def_covs i
  c * Real.exp expo

/-- `GaussianClassifierNode.class_probabilities` on a single row: each
label's density times its prior, divided by the row total. -/
noncomputable def classProbabilities {d : ℕ} (g : GaussView d)
    (x : Fin d → ℝ) (i : Fin g.nlabels) : ℝ :=
  (gaussianProb g x i * g.p i) / (∑ j, gaussianProb g x j * g.p j)

/-! ## DiscreteHopfieldClassifier -/

/-- Modelled from the spec: `mdp.utils.bool_to_sign` maps `{false, true}` to
the bipolar `{-1, +1}`. -/
def bool_to_sign (b : Bool) : ℚ := if b then 1 else -1

/-- Modelled from the spec: `mdp.utils.sign_to_bool` maps bipolar values back
to booleans (nonnegative to `true`). -/
def sign_to_bool (q : ℚ) : Bool := decide (0 ≤ q)

/-- `DiscreteHopfieldClassifier._train_one`:
`weight_matrix += outer(pattern, pattern) / input_dim`. -/
def hop_train_one {n : ℕ} (W : Fin n → Fin n → ℚ) (p : Fin n → ℚ) :
    Fin n → Fin n → ℚ :=
  fun a b => W a b + p a * p b / (n : ℚ)

/-- `DiscreteHopfieldClassifier._train` over a full training history starting
from the scalar-zero initial weight matrix. -/
def hop_train {n : ℕ} (pats : List (Fin n → Bool)) : Fin n → Fin n → ℚ :=
  pats.foldl (fun W x => hop_train_one W (fun i => bool_to_sign (x i)))
    (fun _ _ => 0)

/-- `DiscreteHopfieldClassifier._stop_training`: zero the diagonal. -/
def hop_stop {n : ℕ} (W : Fin n → Fin n → ℚ) : Fin n → Fin n → ℚ :=
  fun a b => if a = b then 0 else W a b

/-- `numx.dot(w_row, pattern)` for unit `i`. -/
def localField {n : ℕ} (W : Fin n → Fin n → ℚ) (p : Fin n → ℚ)
    (i : Fin n) : ℚ := ∑ j, W i j * p j

/-- One unit visit of the relaxation loop of `_label_one`: compute
`sign(dot(w_row, pattern) - threshold[row])`; do nothing when it is 0
(McKay's rule), do nothing when it equals the current value, and otherwise
flip the unit and clear the `has_converged` flag. -/
def hop_update {n : ℕ} (W : Fin n → Fin n → ℚ) (θ : Fin n → ℚ)
    (st : (Fin n → ℚ) × Bool) (i : Fin n) : (Fin n → ℚ) × Bool :=
  if sgn (localField W st.1 i - θ i) = 0 then st
  else if st.1 i = sgn (localField W st.1 i - θ i) then st
  else (Function.update st.1 i (sgn (localField W st.1 i - θ i)), false)

/-- One full pass of the relaxation loop: visit the units in the order
`ord` (`range(len(weight_matrix))`, shuffled when `_shuffled_update`),
starting with `has_converged = True`. -/
def hop_pass {n : ℕ} (W : Fin n → Fin n → ℚ) (θ : Fin n → ℚ)
    (ord : List (Fin n)) (p : Fin n → ℚ) : (Fin n → ℚ) × Bool :=
  ord.foldl (hop_update W θ) (p, true)

/-- The `while not has_converged` loop, with the pass orders supplied as a
stream `ords` (pass `k` uses `ords k`) and an explicit fuel bound; `none`
means the fuel ran out before a pass with no flips. -/
def hop_run {n : ℕ} (W : Fin n → Fin n → ℚ) (θ : Fin n → ℚ)
    (ords : ℕ → List (Fin n)) : ℕ → ℕ → (Fin n → ℚ) → Option (Fin n → ℚ)
| _, 0, _ => none
| k, fuel + 1, p =>
    let r := hop_pass W θ (ords k) p
    if r.2 then some r.1 else hop_run W θ ords (k + 1) fuel r.1

/-- `DiscreteHopfieldClassifier._label_one`: map the boolean pattern to
bipolar, relax, map back. -/
def hop_label_one {n : ℕ} (W : Fin n → Fin n → ℚ) (θ : Fin n → ℚ)
    (ords : ℕ → List (Fin n)) (fuel : ℕ) (x : Fin n → Bool) :
    Option (Fin n → Bool) :=
  (hop_run W θ ords 0 fuel (fun i => bool_to_sign (x i))).map
    (fun p i => sign_to_bool (p i))

/-- The Hopfield energy function `-1/2 pᵀWp + θᵀp`, the strict Lyapunov
function of the asynchronous relaxation. -/
def hop_energy {n : ℕ} (W : Fin n → Fin n → ℚ) (θ : Fin n → ℚ)
    (p : Fin n → ℚ) : ℚ :=
  -(1/2 : ℚ) * (∑ a, ∑ b, W a b * p a * p b) + ∑ a, θ a * p a

/-- A bipolar pattern: every unit holds 1 or -1. -/
def hop_valid {n : ℕ} (p : Fin n → ℚ) : Prop :=
  ∀ i, p i = 1 ∨ p i = -1

/-- Number of bipolar patterns of strictly smaller energy: the termination
measure of the relaxation. -/
def hop_measure {n : ℕ} (W : Fin n → Fin n → ℚ)
    (θ : Fin n → ℚ) (p : Fin n → ℚ) : ℕ :=
  ((Fintype.piFinset (fun _ : Fin n => ({1, -1} : Finset ℚ))).filter
    (fun q => hop_energy W θ q < hop_energy W θ p)).card

/-! ## Concrete example states (used by witnesses and counterexamples) -/

/-- A one-label finalized Gaussian inference view in one dimension (unit
inverse covariance and determinant, zero mean, prior 1). -/
def gaussViewEx : GaussView 1 :=
  ⟨1, fun _ _ => 0, fun _ => 1, fun _ => 1, fun _ => 1⟩

/-- A zero-dimensional Gaussian state holding one accumulator with one
observation for label 0: the smallest training history on which
`_stop_training` succeeds. -/
def gaussEx0 : GState 0 ℤ := ⟨some [((0 : ℤ), ⟨0, 0, 1⟩)], [], [], [], [], []⟩

/-- The state produced by the first `_stop_training` call on `gaussEx0`. -/
noncomputable def gaussEx1 : GState 0 ℤ :=
  match gStop gaussEx0 with
  | .ok s => s
  | .error _ => gaussEx0

/-- A trained two-cluster K-means state holding the rows `[0]` and `[10]`. -/
def kmEx0 : KState := ⟨2, 5, [[0], [10]], 2, none⟩

/-- The state produced by `_stop_training` on `kmEx0` with seed indices
`[0, 1]`: the two data rows become the two centroids. -/
def kmEx1 : KState := ⟨2, 5, [[0], [10]], 2, some [[0], [10]]⟩

/-! ## Theorems -/

theorem alookup_abump_self {K : Type} [DecidableEq K] (d : List (K × ℕ))
    (k : K) : alookup (abump d k) k = some ((alookup d k).getD 0 + 1) := by
  induction d with
  | nil => simp [abump, alookup]
  | cons e rest ih =>
      obtain ⟨k', v⟩ := e
      by_cases h : k = k'
      · subst h; simp [abump, alookup]
      · simp [abump, alookup, h, ih]

theorem alookup_abump_ne {K : Type} [DecidableEq K] (d : List (K × ℕ))
    (k k' : K) (h : k ≠ k') : alookup (abump d k') k = alookup d k := by
  induction d with
  | nil => simp [abump, alookup, h]
  | cons e rest ih =>
      obtain ⟨k₀, v⟩ := e
      by_cases hk : k' = k₀
      · subst hk; simp [abump, alookup, h]
      · by_cases hk2 : k = k₀ <;> simp [abump, alookup, hk, hk2, ih]

theorem alookup_abump_pos {K : Type} [DecidableEq K] (d : List (K × ℕ))
    (k k' : K) (c : ℕ) (hpos : ∀ a b, alookup d a = some b → 1 ≤ b)
    (h : alookup (abump d k') k = some c) : 1 ≤ c := by
  by_cases hk : k = k'
  · subst hk
    rw [alookup_abump_self] at h
    have hc := Option.some.inj h
    omega
  · rw [alookup_abump_ne d k k' hk] at h
    exact hpos k c h

theorem akeys_abump {K : Type} [DecidableEq K] (d : List (K × ℕ)) (k : K) :
    (abump d k).map Prod.fst =
      if k ∈ d.map Prod.fst then d.map Prod.fst
      else d.map Prod.fst ++ [k] := by
  induction d with
  | nil => simp [abump]
  | cons e rest ih =>
      obtain ⟨k₀, v⟩ := e
      by_cases hk : k = k₀
      · subst hk; simp [abump]
      · by_cases h2 : k ∈ rest.map Prod.fst <;>
          simp [abump, hk, ih, h2]

theorem mem_keys_abump {K : Type} [DecidableEq K] (d : List (K × ℕ))
    (k k' : K) : k ∈ (abump d k').map Prod.fst ↔
      k ∈ d.map Prod.fst ∨ k = k' := by
  rw [akeys_abump]
  by_cases h : k' ∈ d.map Prod.fst
  · rw [if_pos h]
    constructor
    · tauto
    · rintro (h1 | rfl)
      · exact h1
      · exact h
  · rw [if_neg h, List.mem_append, List.mem_singleton]

theorem alookup_isSome_of_mem_keys {K : Type} [DecidableEq K]
    (d : List (K × ℕ)) (k : K) (h : k ∈ d.map Prod.fst) :
    ∃ c, alookup d k = some c := by
  induction d with
  | nil => simp at h
  | cons e rest ih =>
      obtain ⟨k₀, v⟩ := e
      by_cases hk : k = k₀
      · exact ⟨v, by simp [alookup, hk]⟩
      · rw [List.map_cons, List.mem_cons] at h
        rcases h with h | h
        · exact absurd h hk
        · obtain ⟨c, hc⟩ := ih h
          exact ⟨c, by simp [alookup, hk, hc]⟩

theorem minv_init {L : Type} [DecidableEq L] : MInv (mInit L) := by
  constructor
  · intro l c h; simp [mInit, alookup] at h
  · intro f n h; simp [mInit, alookup] at h

theorem minv_learn {L : Type} [DecidableEq L] (st : MState L)
    (f0 : List ℚ) (l0 : L) (h : MInv st) : MInv (mLearn st f0 l0) := by
  obtain ⟨hl, hf⟩ := h
  constructor
  · intro l c hc
    exact alookup_abump_pos st.labels l l0 c hl hc
  · intro f n hn
    simp only [mLearn] at hn
    by_cases hff : f = f0
    · subst hff
      rw [alookup_abump_self] at hn
      have hn' := Option.some.inj hn
      simp only [mLearn]
      cases hEq : alookup st.features f with
      | none => rw [hEq] at hn'; simp at hn'; omega
      | some m =>
          have := hf f m hEq
          rw [hEq] at hn'; simp at hn'
          omega
    · rw [alookup_abump_ne st.features f f0 hff] at hn
      have := hf f n hn
      simp [mLearn]
      omega

theorem minv_foldl {L : Type} [DecidableEq L]
    (pairs : List (List ℚ × L)) :
    ∀ st : MState L, MInv st →
      MInv (pairs.foldl (fun s p => mLearn s p.1 p.2) st) := by
  induction pairs with
  | nil => intro st h; exact h
  | cons p rest ih =>
      intro st h
      exact ih (mLearn st p.1 p.2) (minv_learn st p.1 p.2 h)

theorem minv_trained {L : Type} [DecidableEq L]
    (pairs : List (List ℚ × L)) : MInv (mTrainPairs pairs) :=
  minv_foldl pairs (mInit L) minv_init

theorem markov_label_keys {L : Type} [DecidableEq L]
    (pairs : List (List ℚ × L)) :
    ∀ (st : MState L) (l : L),
      l ∈ ((pairs.foldl (fun s p => mLearn s p.1 p.2) st).labels.map
        Prod.fst) ↔
      l ∈ st.labels.map Prod.fst ∨ l ∈ pairs.map Prod.snd := by
  induction pairs with
  | nil => intro st l; simp
  | cons p rest ih =>
      intro st l
      rw [List.foldl_cons, ih (mLearn st p.1 p.2) l]
      simp only [mLearn, mem_keys_abump, List.map_cons, List.mem_cons]
      tauto

theorem markov_trained_keys {L : Type} [DecidableEq L]
    (pairs : List (List ℚ × L)) (l : L) :
    l ∈ (mTrainPairs pairs).labels.map Prod.fst ↔
      l ∈ pairs.map Prod.snd := by
  rw [mTrainPairs, markov_label_keys pairs (mInit L) l]
  simp [mInit]

theorem mapM_ok_of_forall {A B : Type} (l : List A)
    (f : A → Except String B) (g : A → B)
    (h : ∀ a ∈ l, f a = .ok (g a)) : l.mapM f = .ok (l.map g) := by
  induction l with
  | nil => rfl
  | cons a rest ih =>
      rw [List.mapM_cons, h a (by simp),
        ih (fun a ha => h a (by simp [ha]))]
      rfl

theorem mProbBody_ok {L : Type} [DecidableEq L] (st : MState L)
    (f : List ℚ) (nF : ℕ) (lc : L × ℕ) (hinv : MInv st)
    (hF : alookup st.features f = some nF) (hmem : lc ∈ st.labels) :
    mProbBody st f nF lc = .ok (lc.1,
      (jointD st f lc.1 / labelD st lc.1) *
        (labelD st lc.1 / (st.ntotal_connections : ℚ)) /
        (featD st f / (st.ntotal_connections : ℚ))) := by
  obtain ⟨c, hc⟩ := alookup_isSome_of_mem_keys st.labels lc.1
    (List.mem_map_of_mem Prod.fst hmem)
  have hc1 : 1 ≤ c := hinv.1 lc.1 c hc
  have hnF := hinv.2 f nF hF
  have htot : st.ntotal_connections ≠ 0 := by omega
  have hnl : (alookup st.labels lc.1).getD 0 ≠ 0 := by
    rw [hc]; simp; omega
  have hpf : (nF : ℚ) / (st.ntotal_connections : ℚ) ≠ 0 := by
    apply div_ne_zero
    · exact_mod_cast Nat.cast_ne_zero.mpr (by omega)
    · exact_mod_cast Nat.cast_ne_zero.mpr htot
  rw [mProbBody]
  simp only [Bind.bind, Except.bind, if_neg hnl, if_neg htot, if_neg hpf]
  simp [pure, Except.pure, jointD, labelD, featD, hF]

/-- C1: for every training history of `SimpleMarkovClassifier` and every query
feature whose tuple is absent from the feature-count dict, `_prob_one` returns
the empty dict: the result is `Except.ok []`, so no exception (in particular
no `ZeroDivisionError`) is raised; `mProbOne` only reads the state, so the
classifier state is unchanged by construction. -/
theorem claim_C1_markov_unseen_feature {L : Type} [DecidableEq L]
    (pairs : List (List ℚ × L)) (f : List ℚ)
    (h : alookup (mTrainPairs pairs).features f = none) :
    mProbOne (mTrainPairs pairs) f = .ok [] := by
  rw [mProbOne, h]

theorem claim_C1_witness :
    alookup (mTrainPairs [([0], (1 : ℤ))]).features [5] = none ∧
      mProbOne (mTrainPairs [([0], (1 : ℤ))]) [5] = .ok [] :=
  ⟨by decide, claim_C1_markov_unseen_feature [([0], (1 : ℤ))] [5] (by decide)⟩

/-- C2: for every training history and every query feature observed at least
once, `_prob_one` returns (without raising) a dict whose key list is exactly
the list of labels ever observed, each label mapped to
`(joint/(label count)) * ((label count)/total) / ((feature count)/total)`,
with the joint count read as 0 when the pair was never observed. -/
theorem claim_C2_markov_bayes_formula {L : Type} [DecidableEq L]
    (pairs : List (List ℚ × L)) (f : List ℚ)
    (h : alookup (mTrainPairs pairs).features f ≠ none) :
    ∃ res, mProbOne (mTrainPairs pairs) f = .ok res ∧
      res.map Prod.fst = (mTrainPairs pairs).labels.map Prod.fst ∧
      (∀ l, l ∈ res.map Prod.fst ↔ l ∈ pairs.map Prod.snd) ∧
      ∀ lp ∈ res, lp.2 =
        (jointD (mTrainPairs pairs) f lp.1 / labelD (mTrainPairs pairs) lp.1)
          * (labelD (mTrainPairs pairs) lp.1 /
              ((mTrainPairs pairs).ntotal_connections : ℚ)) /
          (featD (mTrainPairs pairs) f /
            ((mTrainPairs pairs).ntotal_connections : ℚ)) := by
  obtain ⟨nF, hF⟩ := Option.ne_none_iff_exists'.mp h
  refine ⟨(mTrainPairs pairs).labels.map (fun lc => (lc.1,
    (jointD (mTrainPairs pairs) f lc.1 / labelD (mTrainPairs pairs) lc.1)
      * (labelD (mTrainPairs pairs) lc.1 /
          ((mTrainPairs pairs).ntotal_connections : ℚ)) /
      (featD (mTrainPairs pairs) f /
        ((mTrainPairs pairs).ntotal_connections : ℚ)))), ?_, ?_, ?_, ?_⟩
  · rw [mProbOne, hF]
    exact mapM_ok_of_forall _ _ _
      (fun lc hlc => mProbBody_ok (mTrainPairs pairs) f nF lc
        (minv_trained pairs) hF hlc)
  · simp [List.map_map, Function.comp]
  · intro l
    rw [List.map_map]
    have : (Prod.fst ∘ fun lc : L × ℕ => (lc.1,
      (jointD (mTrainPairs pairs) f lc.1 / labelD (mTrainPairs pairs) lc.1)
        * (labelD (mTrainPairs pairs) lc.1 /
            ((mTrainPairs pairs).ntotal_connections : ℚ)) /
        (featD (mTrainPairs pairs) f /
          ((mTrainPairs pairs).ntotal_connections : ℚ)))) = Prod.fst := rfl
    rw [this]
    exact markov_trained_keys pairs l
  · intro lp hlp
    rw [List.mem_map] at hlp
    obtain ⟨lc, _, rfl⟩ := hlp
    rfl

theorem claim_C2_witness :
    (alookup (mTrainPairs [([0], (0 : ℤ)), ([0], 1), ([1], 1)]).features [0]
      ≠ none) ∧
    (∃ res,
      mProbOne (mTrainPairs [([0], (0 : ℤ)), ([0], 1), ([1], 1)]) [0] =
        .ok res ∧
      res.map Prod.fst =
        (mTrainPairs [([0], (0 : ℤ)), ([0], 1), ([1], 1)]).labels.map
          Prod.fst ∧
      (∀ l, l ∈ res.map Prod.fst ↔
        l ∈ [([0], (0 : ℤ)), ([0], 1), ([1], 1)].map Prod.snd) ∧
      ∀ lp ∈ res, lp.2 =
        (jointD (mTrainPairs [([0], (0 : ℤ)), ([0], 1), ([1], 1)]) [0] lp.1 /
            labelD (mTrainPairs [([0], (0 : ℤ)), ([0], 1), ([1], 1)]) lp.1)
          * (labelD (mTrainPairs [([0], (0 : ℤ)), ([0], 1), ([1], 1)]) lp.1 /
              ((mTrainPairs
                [([0], (0 : ℤ)), ([0], 1), ([1], 1)]).ntotal_connections : ℚ))
          / (featD (mTrainPairs [([0], (0 : ℤ)), ([0], 1), ([1], 1)]) [0] /
              ((mTrainPairs
                [([0], (0 : ℤ)), ([0], 1),
                  ([1], 1)]).ntotal_connections : ℚ))) :=
  ⟨by decide,
    claim_C2_markov_bayes_formula [([0], (0 : ℤ)), ([0], 1), ([1], 1)] [0]
      (by decide)⟩

theorem getD_set_self {A : Type} (l : List A) (i : ℕ) (a d : A)
    (h : i < l.length) : (l.set i a).getD i d = a := by
  rw [List.getD_eq_getElem?_getD, List.getElem?_set_self]
  · simp
  · omega

theorem getD_set_ne {A : Type} (l : List A) (i j : ℕ) (a d : A)
    (h : i ≠ j) : (l.set i a).getD j d = l.getD j d := by
  rw [List.getD_eq_getElem?_getD, List.getElem?_set_ne h,
    List.getD_eq_getElem?_getD]

theorem getD_replicate {A : Type} (n i : ℕ) (a d : A) (h : i < n) :
    (List.replicate n a).getD i d = a := by
  rw [List.getD_eq_getElem?_getD, List.getElem?_replicate]
  simp [h]

theorem getD_map {A B : Type} (l : List A) (f : A → B) (i : ℕ) (d : A)
    (d' : B) (h : i < l.length) : (l.map f).getD i d' = f (l.getD i d) := by
  rw [List.getD_eq_getElem?_getD, List.getElem?_map,
    List.getD_eq_getElem?_getD, List.getElem?_eq_getElem h]
  simp

theorem getD_range_map {B : Type} (n i : ℕ) (f : ℕ → B) (d : B)
    (h : i < n) : ((List.range n).map f).getD i d = f i := by
  rw [List.getD_eq_getElem?_getD, List.getElem?_map, List.getElem?_range h]
  simp

theorem argmin_first_spec (l : List ℚ) (h : l ≠ []) :
    argmin_first l < l.length ∧
    (∀ j, j < l.length → l.getD (argmin_first l) 0 ≤ l.getD j 0) ∧
    (∀ j, j < argmin_first l → l.getD (argmin_first l) 0 < l.getD j 0) := by
  have gz : ∀ (w : ℚ) (ws : List ℚ), (w :: ws).getD 0 0 = w :=
    fun _ _ => rfl
  have gs : ∀ (w : ℚ) (ws : List ℚ) (t : ℕ),
      (w :: ws).getD (t + 1) 0 = ws.getD t 0 := fun _ _ _ => rfl
  induction l with
  | nil => exact absurd rfl h
  | cons v vs ih =>
      by_cases hvs : vs = []
      · subst hvs
        refine ⟨by simp [argmin_first], ?_, ?_⟩
        · intro j hj
          simp only [List.length_cons, List.length_nil] at hj
          have hj0 : j = 0 := by omega
          subst hj0
          simp [argmin_first]
        · intro j hj
          simp [argmin_first] at hj
      · obtain ⟨ih1, ih2, ih3⟩ := ih hvs
        by_cases hle : v ≤ vs.getD (argmin_first vs) 0
        · have ha : argmin_first (v :: vs) = 0 := by
            rw [argmin_first, if_neg hvs, if_pos hle]
          refine ⟨by simp [ha], ?_, ?_⟩
          · intro j hj
            rw [ha, gz]
            cases j with
            | zero => rw [gz]
            | succ t =>
                rw [gs]
                exact le_trans hle (ih2 t (by
                  simp only [List.length_cons] at hj; omega))
          · intro j hj
            rw [ha] at hj
            omega
        · have ha : argmin_first (v :: vs) = argmin_first vs + 1 := by
            rw [argmin_first, if_neg hvs, if_neg hle]
          refine ⟨by rw [ha]; simp only [List.length_cons]; omega, ?_, ?_⟩
          · intro j hj
            rw [ha, gs]
            cases j with
            | zero =>
                rw [gz]
                exact le_of_lt (not_le.mp hle)
            | succ t =>
                rw [gs]
                exact ih2 t (by
                  simp only [List.length_cons] at hj; omega)
          · intro j hj
            rw [ha] at hj
            rw [ha, gs]
            cases j with
            | zero =>
                rw [gz]
                exact not_le.mp hle
            | succ t =>
                rw [gs]
                exact ih3 t (by omega)

theorem kacc_foldl (centroids : List (List ℚ)) (data : List (List ℚ)) :
    ∀ acc : List (Option (List ℚ) × ℕ), ∀ i : ℕ,
      acc.length = centroids.length → i < centroids.length →
      (data.foldl (kacc centroids) acc).getD i (none, 0) =
        (data.filter
          (fun x => nearest_centroid_idx x centroids = i)).foldl
          (fun pr x => (osum pr.1 x, pr.2 + 1)) (acc.getD i (none, 0)) := by
  induction data with
  | nil => intro acc i _ _; rfl
  | cons x rest ih =>
      intro acc i hlen hi
      rw [List.foldl_cons]
      have hlen2 : (kacc centroids acc x).length = centroids.length := by
        simp [kacc, hlen]
      rw [ih (kacc centroids acc x) i hlen2 hi]
      by_cases hidx : nearest_centroid_idx x centroids = i
      · have hset : (kacc centroids acc x).getD i (none, 0) =
            (osum (acc.getD i (none, 0)).1 x,
              (acc.getD i (none, 0)).2 + 1) := by
          rw [kacc]
          simp only [hidx]
          exact getD_set_self acc i _ _ (by omega)
        rw [hset, List.filter_cons_of_pos (by simp [hidx]),
          List.foldl_cons]
      · have hset : (kacc centroids acc x).getD i (none, 0) =
            acc.getD i (none, 0) := by
          rw [kacc]
          exact getD_set_ne acc _ i _ _ hidx
        rw [hset, List.filter_cons_of_neg (by simp [hidx])]

theorem pair_foldl (l : List (List ℚ)) :
    ∀ pr : Option (List ℚ) × ℕ,
      l.foldl (fun pr x => (osum pr.1 x, pr.2 + 1)) pr =
        (l.foldl osum pr.1, pr.2 + l.length) := by
  induction l with
  | nil => intro pr; simp
  | cons x rest ih =>
      intro pr
      rw [List.foldl_cons, List.foldl_cons, ih]
      simp
      omega

/-- C7: in one Lloyd iteration of `KMeansClassifier._stop_training`, a
cluster receiving zero samples keeps its previous centroid, while a cluster
with assigned samples gets the mean of its assigned samples; assignment is to
the nearest centroid by Euclidean norm with ties broken by the first minimum
(lowest index). -/
theorem claim_C7_kmeans_step_centroids (data cs : List (List ℚ)) (i : ℕ)
    (h : i < cs.length) :
    ((kmeans_step data cs).getD i [] =
      if data.filter (fun x => nearest_centroid_idx x cs = i) = [] then
        cs.getD i []
      else
        ((vsum (data.filter
            (fun x => nearest_centroid_idx x cs = i))).getD []).map
          (fun a => a / ((data.filter
            (fun x => nearest_centroid_idx x cs = i)).length : ℚ))) ∧
    ∀ x : List ℚ,
      nearest_centroid_idx x cs < cs.length ∧
      (∀ j, j < cs.length →
        dist_sq x (cs.getD (nearest_centroid_idx x cs) []) ≤
          dist_sq x (cs.getD j [])) ∧
      (∀ j, j < nearest_centroid_idx x cs →
        dist_sq x (cs.getD (nearest_centroid_idx x cs) []) <
          dist_sq x (cs.getD j [])) := by
  constructor
  · have hacc := kacc_foldl cs data
      (List.replicate cs.length (none, 0)) i (by simp) h
    rw [getD_replicate _ _ _ _ h, pair_foldl] at hacc
    simp only [kmeans_step]
    rw [getD_range_map _ _ _ _ h, hacc]
    by_cases hass :
        data.filter (fun x => nearest_centroid_idx x cs = i) = []
    · simp [hass]
    · have hlen : 0 <
          (data.filter (fun x => nearest_centroid_idx x cs = i)).length :=
        List.length_pos.mpr hass
      rw [if_neg hass]
      simp only [Nat.zero_add]
      rw [if_pos hlen]
      rfl
  · intro x
    have hcs : cs ≠ [] := by
      intro hcc
      rw [hcc] at h
      simp at h
    have hne : cs.map (fun c => dist_sq x c) ≠ [] := by
      simp [hcs]
    obtain ⟨s1, s2, s3⟩ := argmin_first_spec _ hne
    rw [List.length_map] at s1
    have harg : nearest_centroid_idx x cs =
        argmin_first (cs.map (fun c => dist_sq x c)) := rfl
    refine ⟨by rw [harg]; exact s1, ?_, ?_⟩
    · intro j hj
      have hs := s2 j (by rwa [List.length_map])
      rwa [getD_map _ _ _ [] _ s1, getD_map _ _ _ [] _ hj] at hs
    · intro j hj
      rw [harg] at hj
      have hs := s3 j hj
      rwa [getD_map _ _ _ [] _ s1,
        getD_map _ _ _ [] _ (lt_trans hj s1)] at hs

theorem claim_C7_witness :
    (0 < ([[(1 : ℚ)], [9]] : List (List ℚ)).length) ∧
    (kmeans_step [[(0 : ℚ)], [10]] [[(1 : ℚ)], [9]]).getD 0 [] =
      (if ([[(0 : ℚ)], [10]] : List (List ℚ)).filter
          (fun x => nearest_centroid_idx x [[(1 : ℚ)], [9]] = 0) = [] then
        ([[(1 : ℚ)], [9]] : List (List ℚ)).getD 0 []
      else
        ((vsum (([[(0 : ℚ)], [10]] : List (List ℚ)).filter
            (fun x => nearest_centroid_idx x [[(1 : ℚ)], [9]] = 0))).getD
              []).map
          (fun a => a / ((([[(0 : ℚ)], [10]] : List (List ℚ)).filter
            (fun x =>
              nearest_centroid_idx x [[(1 : ℚ)], [9]] = 0)).length : ℚ))) :=
  ⟨by decide,
    (claim_C7_kmeans_step_centroids [[(0 : ℚ)], [10]] [[(1 : ℚ)], [9]] 0
      (by decide)).1⟩

theorem ktrain_foldl_fields (batches : List (List (List ℚ))) :
    ∀ st : KState, (batches.foldl kTrain st).centroids = st.centroids ∧
      (batches.foldl kTrain st).max_iter = st.max_iter := by
  induction batches with
  | nil => intro st; exact ⟨rfl, rfl⟩
  | cons b rest ih =>
      intro st
      rw [List.foldl_cons]
      exact ih (kTrain st b)

/-- C10: when the Lloyd loop of `KMeansClassifier._stop_training` exhausts
all `max_iter` iterations without two consecutive centroid arrays being
exactly equal, `_stop_training` returns with `self._centroids` never assigned,
so it remains `None` as set at construction, and every subsequent `label`
call fails with a `TypeError`. -/
theorem claim_C10_kmeans_nonconvergence (k mi : ℕ)
    (batches : List (List (List ℚ))) (seeds : List ℕ)
    (h : lloyd (batches.foldl kTrain (kInit k mi)).data mi
      (seeds.map
        (fun i => (batches.foldl kTrain (kInit k mi)).data.getD i [])) =
      none) :
    kStop (batches.foldl kTrain (kInit k mi)) seeds =
      .ok (batches.foldl kTrain (kInit k mi)) ∧
    (batches.foldl kTrain (kInit k mi)).centroids = none ∧
    ∀ x, kLabelOne (batches.foldl kTrain (kInit k mi)) x =
      .error "TypeError: NoneType object is not iterable" := by
  obtain ⟨hc0, hmi0⟩ := ktrain_foldl_fields batches (kInit k mi)
  have hc : (batches.foldl kTrain (kInit k mi)).centroids = none := by
    rw [hc0]; rfl
  have hmi : (batches.foldl kTrain (kInit k mi)).max_iter = mi := by
    rw [hmi0]; rfl
  refine ⟨?_, hc, ?_⟩
  · rw [kStop, hc]
    simp only [centroidsNotTruthy, Bind.bind, Except.bind, if_true]
    rw [hmi, h]
    rfl
  · intro x
    rw [kLabelOne, hc]

theorem claim_C10_witness :
    (lloyd ([[[(0 : ℚ)]]].foldl kTrain (kInit 1 0)).data 0
      ([0].map
        (fun i => ([[[(0 : ℚ)]]].foldl kTrain (kInit 1 0)).data.getD i [])) =
      none) ∧
    kStop ([[[(0 : ℚ)]]].foldl kTrain (kInit 1 0)) [0] =
      .ok ([[[(0 : ℚ)]]].foldl kTrain (kInit 1 0)) ∧
    kLabelOne ([[[(0 : ℚ)]]].foldl kTrain (kInit 1 0)) [0] =
      .error "TypeError: NoneType object is not iterable" :=
  ⟨rfl, (claim_C10_kmeans_nonconvergence 1 0 [[[(0 : ℚ)]]] [0] rfl).1,
    (claim_C10_kmeans_nonconvergence 1 0 [[[(0 : ℚ)]]] [0] rfl).2.2 [0]⟩

theorem getD_zipWith (f : ℚ → ℚ → ℚ) :
    ∀ (as bs : List ℚ) (j : ℕ), j < as.length → j < bs.length →
      (List.zipWith f as bs).getD j 0 = f (as.getD j 0) (bs.getD j 0) := by
  intro as
  induction as with
  | nil => intro bs j h1 h2; simp at h1
  | cons a as ih =>
      intro bs j h1 h2
      cases bs with
      | nil => simp at h2
      | cons b bs =>
          cases j with
          | zero => rfl
          | succ t =>
              have : (List.zipWith f (a :: as) (b :: bs)).getD (t + 1) 0 =
                  (List.zipWith f as bs).getD t 0 := rfl
              rw [this]
              exact ih bs t (by simpa using h1) (by simpa using h2)

/-- C4: on each `PerceptronClassifier` train call the weights are initialised
to all ones exactly when they are still empty (first call); the batch is then
processed strictly in row order, one `pStep` per (row, label) pair of the
stretched zip (a scalar label broadcasts over all rows); each step updates
`weights[j] += learning_rate * (label - sign(dot(w, row) + bias)) * row[j]`
and `bias += learning_rate * (label - sign(dot(w, row) + bias))`; and
permuting the rows can change the final weights. -/
theorem claim_C4_perceptron_train :
    (∀ (b lr : ℚ) (d : ℕ) (rows : List (List ℚ)) (ls : List ℚ),
      pTrainRaw ⟨[], b, lr⟩ d rows ls =
        pTrainRaw ⟨List.replicate d 1, b, lr⟩ d rows ls) ∧
    (∀ (st : PState) (d : ℕ) (r : List ℚ) (rs : List (List ℚ)) (l : ℚ)
      (ls : List ℚ), st.weights ≠ [] → r ≠ [] →
      pTrainRaw st d (r :: rs) (l :: ls) =
        pTrainRaw (pStep st (r, l)) d rs (if ls = [] then [l] else ls)) ∧
    (∀ (rows : List (List ℚ)) (l : ℚ),
      stretchedZip rows [l] = rows.map (fun r => (r, l))) ∧
    (∀ (st : PState) (r : List ℚ) (l : ℚ) (j : ℕ),
      j < st.weights.length → j < r.length →
      (pStep st (r, l)).weights.getD j 0 =
        st.weights.getD j 0 +
          st.learning_rate * (l - pLabelOne st r) * r.getD j 0 ∧
      (pStep st (r, l)).offset_weight =
        st.offset_weight + st.learning_rate * (l - pLabelOne st r)) ∧
    pTrainRaw pInit 1 [[10], [1]] [-1, 1] ≠
      pTrainRaw pInit 1 [[1], [10]] [1, -1] := by
  refine ⟨?_, ?_, ?_, ?_, ?_⟩
  · intro b lr d rows ls
    by_cases hd : List.replicate d 1 = ([] : List ℚ) <;>
      simp [pTrainRaw, hd]
  · intro st d r rs l ls hw hr
    obtain ⟨r0, rtl, hre⟩ := List.exists_cons_of_ne_nil hr
    obtain ⟨w0, wtl, hwe⟩ := List.exists_cons_of_ne_nil hw
    have hz : (pStep st (r, l)).weights ≠ [] := by
      simp only [pStep]
      rw [hwe, hre]
      simp
    rw [pTrainRaw, pTrainRaw, if_neg hw, if_neg hz]
    cases ls with
    | nil =>
        show (((r, l) :: stretchedZip rs [l]).foldl pStep st) =
          (stretchedZip rs [l]).foldl pStep (pStep st (r, l))
        rw [List.foldl_cons]
    | cons l2 ls2 =>
        show (((r, l) :: stretchedZip rs (l2 :: ls2)).foldl pStep st) =
          (stretchedZip rs (l2 :: ls2)).foldl pStep (pStep st (r, l))
        rw [List.foldl_cons]
  · intro rows l
    induction rows with
    | nil => rfl
    | cons r rest ih => rw [List.map_cons, ← ih]; rfl
  · intro st r l j h1 h2
    refine ⟨?_, rfl⟩
    simpa [pStep] using
      getD_zipWith
        (fun w xi => w + st.learning_rate * (l - pLabelOne st r) * xi)
        st.weights r j h1 h2
  · norm_num [pTrainRaw, pInit, stretchedZip, pStep, pLabelOne, dotl, sgn]

theorem claim_C4_witness :
    ((⟨[(1 : ℚ)], 0, 1/10⟩ : PState).weights ≠ []) ∧
    ([(5 : ℚ)] ≠ ([] : List ℚ)) ∧
    pTrainRaw ⟨[(1 : ℚ)], 0, 1/10⟩ 1 [[5]] [1] =
      pTrainRaw (pStep ⟨[(1 : ℚ)], 0, 1/10⟩ ([5], 1)) 1 [] [1] ∧
    (0 < (⟨[(1 : ℚ)], 0, 1/10⟩ : PState).weights.length) ∧
    (pStep ⟨[(1 : ℚ)], 0, 1/10⟩ ([5], 1)).weights.getD 0 0 =
      (⟨[(1 : ℚ)], 0, 1/10⟩ : PState).weights.getD 0 0 +
        (⟨[(1 : ℚ)], 0, 1/10⟩ : PState).learning_rate *
          (1 - pLabelOne ⟨[(1 : ℚ)], 0, 1/10⟩ [5]) * ([(5 : ℚ)]).getD 0 0 :=
  ⟨by decide, by decide,
    claim_C4_perceptron_train.2.1 ⟨[(1 : ℚ)], 0, 1/10⟩ 1 [5] [] 1 []
      (by decide) (by decide),
    by decide,
    (claim_C4_perceptron_train.2.2.2.1 ⟨[(1 : ℚ)], 0, 1/10⟩ [5] 1 0
      (by decide) (by decide)).1⟩

/-- C5: for each classifier that takes labels (Perceptron, Markov, Gaussian),
a train call whose label sequence has a length different from the number of
batch rows fails with the `TrainingException` message of
`_check_train_args`.  In the model `train` is the spec-modelled composition
"check, then `_train`": the error is returned before the state-transforming
`_train` stage runs, so the classifier state is exactly the pre-call state
(an `Except.error` result carries no new state). -/
theorem claim_C5_label_length_mismatch {L : Type} [DecidableEq L] :
    (∀ (st : PState) (d : ℕ) (rows : List (List ℚ)) (ls : List ℚ),
      ls.length ≠ rows.length →
      pTrain st d rows (.seq ls) = .error lenMismatchMsg) ∧
    (∀ (st : MState L) (rows : List (List ℚ)) (ls : List L),
      ls.length ≠ rows.length →
      mTrain st rows (.seq ls) = .error lenMismatchMsg) ∧
    (∀ (d : ℕ) (st : GState d L) (rows : List (Fin d → ℚ)) (ls : List L),
      ls.length ≠ rows.length →
      gTrain st rows (.seq ls) = .error lenMismatchMsg) := by
  refine ⟨?_, ?_, ?_⟩
  · intro st d rows ls h
    simp [pTrain, pCheckTrainArgs, LabelsArg.isSeq, LabelsArg.toList, h,
      Bind.bind, Except.bind]
  · intro st rows ls h
    simp [mTrain, mCheckTrainArgs, LabelsArg.isSeq, LabelsArg.toList, h,
      Bind.bind, Except.bind]
  · intro d st rows ls h
    simp [gTrain, gCheckTrainArgs, LabelsArg.isSeq, LabelsArg.toList, h,
      Bind.bind, Except.bind]

theorem claim_C5_witness :
    pTrain pInit 1 [[0]] (.seq [1, -1]) = .error lenMismatchMsg ∧
    mTrain (mInit ℤ) [[0]] (.seq [0, 1]) = .error lenMismatchMsg ∧
    gTrain (gInit 1 ℤ) [fun _ => 0] (.seq [0, 1]) = .error lenMismatchMsg :=
  ⟨(@claim_C5_label_length_mismatch ℤ _).1 pInit 1 [[0]] [1, -1]
      (by decide),
    (@claim_C5_label_length_mismatch ℤ _).2.1 (mInit ℤ) [[0]] [0, 1]
      (by decide),
    (@claim_C5_label_length_mismatch ℤ _).2.2 1 (gInit 1 ℤ)
      [fun _ => 0] [0, 1] (by decide)⟩

/-- C8: for every finalized `GaussianClassifierNode` and every query row,
each row of `class_probabilities` is the per-label Gaussian density (from the
stored mean, inverse covariance and square-root determinant) times the
label's prior, normalised by the row total, and the row sums to 1 whenever
the unnormalised total is nonzero. -/
theorem claim_C8_gaussian_posterior_row_sum {d : ℕ} (g : GaussView d)
    (x : Fin d → ℝ) (h : (∑ j, gaussianProb g x j * g.p j) ≠ 0) :
    (∀ i, classProbabilities g x i =
      gaussianProb g x i * g.p i / (∑ j, gaussianProb g x j * g.p j)) ∧
    (∑ i, classProbabilities g x i) = 1 := by
  constructor
  · intro i; rfl
  · simp only [classProbabilities]
    rw [← Finset.sum_div]
    exact div_self h

theorem claim_C8_witness :
    ((∑ j, gaussianProb gaussViewEx (fun _ => 0) j * gaussViewEx.p j) ≠ 0) ∧
    (∑ i, classProbabilities gaussViewEx (fun _ => 0) i) = 1 := by
  have htot0 : (∑ j : Fin 1, gaussianProb gaussViewEx (fun _ => 0) j *
      gaussViewEx.p j) ≠ 0 := by
    rw [Fin.sum_univ_one]
    simp only [gaussianProb, gaussViewEx]
    positivity
  have htot :
      (∑ j, gaussianProb gaussViewEx (fun _ => 0) j * gaussViewEx.p j) ≠
        0 := htot0
  exact ⟨htot,
    (claim_C8_gaussian_posterior_row_sum gaussViewEx (fun _ => 0) htot).2⟩

theorem hop_stop_idem {n : ℕ} (W : Fin n → Fin n → ℚ) :
    hop_stop (hop_stop W) = hop_stop W := by
  funext a b
  by_cases h : a = b <;> simp [hop_stop, h]

theorem kmeans_first_stop_ok : kStop kmEx0 [0, 1] = .ok kmEx1 := by
  have hstep : kmeans_step [[0], [10]] [[(0 : ℚ)], [10]] = [[0], [10]] := by
    norm_num [kmeans_step, kacc, nearest_centroid_idx, argmin_first,
      dist_sq, osum, List.foldl, List.range, List.range.loop]
  have hl : lloyd [[0], [10]] 5 [[(0 : ℚ)], [10]] = some [[0], [10]] := by
    rw [show (5 : ℕ) = 4 + 1 from rfl]
    rw [lloyd]
    simp [hstep]
  simp only [kStop, kmEx0, centroidsNotTruthy, Bind.bind, Except.bind,
    if_true]
  norm_num
  rw [hl]
  rfl

/-- C9 (amended): Hopfield's finalize step is idempotent — applying
`_stop_training` twice yields the same weight matrix and identical label
results — but for `GaussianClassifierNode` and `KMeansClassifier` a second
direct call of the finalize step fails instead of being a no-op: the Gaussian
`_stop_training` hits the deleted `cov_objs` (`AttributeError`), and the
K-means `_stop_training` evaluates `not self._centroids` on an array with
more than one element (`ValueError`). -/
theorem claim_C9_finalize_idempotence :
    (∀ (n : ℕ) (W : Fin n → Fin n → ℚ),
      hop_stop (hop_stop W) = hop_stop W) ∧
    (∀ (n : ℕ) (W : Fin n → Fin n → ℚ) (θ : Fin n → ℚ)
      (ords : ℕ → List (Fin n)) (fuel : ℕ) (x : Fin n → Bool),
      hop_label_one (hop_stop (hop_stop W)) θ ords fuel x =
        hop_label_one (hop_stop W) θ ords fuel x) ∧
    (∀ (d : ℕ) (L : Type) [DecidableEq L] [LinearOrder L]
      (st st' : GState d L), gStop st = .ok st' →
      gStop st' = .error "AttributeError: cov_objs") ∧
    (∀ (st st' : KState) (s1 s2 : List ℕ), kStop st s1 = .ok st' →
      1 < ((st'.centroids.getD []).map List.length).sum →
      kStop st' s2 = .error
        "ValueError: The truth value of an array with more than one element is ambiguous") := by
  refine ⟨?_, ?_, ?_, ?_⟩
  · intro n W
    exact hop_stop_idem W
  · intro n W θ ords fuel x
    rw [hop_stop_idem]
  · intro d L instD instL st st' h
    obtain ⟨co, la, ic, me, pp, sq⟩ := st
    cases co with
    | none => exact absurd h (by simp [gStop])
    | some m =>
        simp only [gStop] at h
        rw [Except.ok.injEq] at h
        obtain ⟨co', la', ic', me', pp', sq'⟩ := st'
        have hco : co' = none := by
          have h2 := congrArg GState.cov_objs h
          simpa using h2.symm
        subst hco
        rfl
  · intro st st' s1 s2 h hsz
    cases hc : st'.centroids with
    | none =>
        exfalso
        rw [hc] at hsz
        simp at hsz
    | some cs =>
        rw [hc] at hsz
        simp only [Option.getD_some] at hsz
        simp only [kStop, hc, centroidsNotTruthy, Option.getD_some,
          if_pos hsz, Bind.bind, Except.bind]

theorem claim_C9_counterexample :
    gStop gaussEx0 = .ok gaussEx1 ∧
    gStop gaussEx1 = .error "AttributeError: cov_objs" ∧
    kStop kmEx0 [0, 1] = .ok kmEx1 ∧
    kStop kmEx1 [0, 1] = .error
      "ValueError: The truth value of an array with more than one element is ambiguous" :=
  ⟨rfl, rfl, kmeans_first_stop_ok, rfl⟩

theorem claim_C9_witness :
    gStop gaussEx0 = .ok gaussEx1 ∧
    gStop gaussEx1 = .error "AttributeError: cov_objs" ∧
    kStop kmEx0 [0, 1] = .ok kmEx1 ∧
    (1 < ((kmEx1.centroids.getD []).map List.length).sum) ∧
    kStop kmEx1 [0, 1] = .error
      "ValueError: The truth value of an array with more than one element is ambiguous" :=
  ⟨rfl,
    claim_C9_finalize_idempotence.2.2.1 0 ℤ gaussEx0 gaussEx1 rfl,
    kmeans_first_stop_ok,
    by decide,
    claim_C9_finalize_idempotence.2.2.2 kmEx0 kmEx1 [0, 1] [0, 1]
      kmeans_first_stop_ok (by decide)⟩

theorem sgn_cases (q : ℚ) (h : sgn q ≠ 0) :
    (sgn q = 1 ∧ 0 < q) ∨ (sgn q = -1 ∧ q < 0) := by
  by_cases h1 : 0 < q
  · exact Or.inl ⟨by simp [sgn, h1], h1⟩
  · by_cases h2 : q < 0
    · exact Or.inr ⟨by simp [sgn, h1, h2], h2⟩
    · exact absurd (by simp [sgn, h1, h2]) h

theorem update_eq_add {n : ℕ} (p : Fin n → ℚ) (i : Fin n) (s : ℚ) :
    ∀ a, Function.update p i s a = p a + (if a = i then s - p i else 0) := by
  intro a
  by_cases h : a = i
  · subst h
    rw [Function.update_same, if_pos rfl]
    ring
  · rw [Function.update_noteq h, if_neg h]
    ring

theorem quad_update {n : ℕ} (W : Fin n → Fin n → ℚ) (p : Fin n → ℚ)
    (i : Fin n) (s : ℚ) (hsym : ∀ a b, W a b = W b a) (hdiag : W i i = 0) :
    (∑ a, ∑ b, W a b * Function.update p i s a * Function.update p i s b) =
      (∑ a, ∑ b, W a b * p a * p b) +
        2 * (s - p i) * localField W p i := by
  have expand : (∑ a, ∑ b,
      W a b * Function.update p i s a * Function.update p i s b) =
      (∑ a, ∑ b, W a b * p a * p b) +
      (∑ a, ∑ b, W a b * p a * (if b = i then s - p i else 0)) +
      (∑ a, ∑ b, W a b * (if a = i then s - p i else 0) * p b) +
      (∑ a, ∑ b, W a b * (if a = i then s - p i else 0) *
        (if b = i then s - p i else 0)) := by
    rw [← Finset.sum_add_distrib, ← Finset.sum_add_distrib,
      ← Finset.sum_add_distrib]
    apply Finset.sum_congr rfl
    intro a _
    rw [← Finset.sum_add_distrib, ← Finset.sum_add_distrib,
      ← Finset.sum_add_distrib]
    apply Finset.sum_congr rfl
    intro b _
    rw [update_eq_add p i s a, update_eq_add p i s b]
    ring
  have S1 : (∑ a, ∑ b, W a b * p a * (if b = i then s - p i else 0)) =
      (s - p i) * localField W p i := by
    have h1 : ∀ a : Fin n, (∑ b, W a b * p a *
        (if b = i then s - p i else 0)) = W a i * p a * (s - p i) := by
      intro a
      rw [Finset.sum_eq_single i (fun b _ hb => by simp [hb])
        (fun hi => absurd (Finset.mem_univ i) hi)]
      simp
    rw [Finset.sum_congr rfl (fun a _ => h1 a), localField,
      Finset.mul_sum]
    apply Finset.sum_congr rfl
    intro a _
    rw [hsym a i]
    ring
  have S2 : (∑ a, ∑ b, W a b * (if a = i then s - p i else 0) * p b) =
      (s - p i) * localField W p i := by
    rw [Finset.sum_eq_single i
      (fun a _ ha => by simp [ha])
      (fun hi => absurd (Finset.mem_univ i) hi)]
    rw [localField, Finset.mul_sum]
    apply Finset.sum_congr rfl
    intro b _
    simp
    ring
  have S3 : (∑ a, ∑ b, W a b * (if a = i then s - p i else 0) *
      (if b = i then s - p i else 0)) = 0 := by
    rw [Finset.sum_eq_single i
      (fun a _ ha => by simp [ha])
      (fun hi => absurd (Finset.mem_univ i) hi)]
    rw [Finset.sum_eq_single i
      (fun b _ hb => by simp [hb])
      (fun hi => absurd (Finset.mem_univ i) hi)]
    simp [hdiag]
  rw [expand, S1, S2, S3]
  ring

theorem theta_update {n : ℕ} (θ p : Fin n → ℚ) (i : Fin n) (s : ℚ) :
    (∑ a, θ a * Function.update p i s a) =
      (∑ a, θ a * p a) + θ i * (s - p i) := by
  have expand : (∑ a, θ a * Function.update p i s a) =
      (∑ a, θ a * p a) +
      (∑ a, θ a * (if a = i then s - p i else 0)) := by
    rw [← Finset.sum_add_distrib]
    apply Finset.sum_congr rfl
    intro a _
    rw [update_eq_add p i s a]
    ring
  have hsingle : (∑ a, θ a * (if a = i then s - p i else 0)) =
      θ i * (s - p i) := by
    rw [Finset.sum_eq_single i
      (fun a _ ha => by simp [ha])
      (fun hi => absurd (Finset.mem_univ i) hi)]
    simp
  rw [expand, hsingle]

theorem hop_energy_flip {n : ℕ} (W : Fin n → Fin n → ℚ) (θ : Fin n → ℚ)
    (p : Fin n → ℚ) (i : Fin n) (hsym : ∀ a b, W a b = W b a)
    (hdiag : ∀ j, W j j = 0) (hp : hop_valid p)
    (h0 : sgn (localField W p i - θ i) ≠ 0)
    (hne : p i ≠ sgn (localField W p i - θ i)) :
    hop_energy W θ (Function.update p i (sgn (localField W p i - θ i))) <
      hop_energy W θ p := by
  have hE : ∀ s : ℚ, hop_energy W θ (Function.update p i s) =
      hop_energy W θ p +
        (-(s - p i) * localField W p i + θ i * (s - p i)) := by
    intro s
    rw [hop_energy, hop_energy, quad_update W p i s hsym (hdiag i),
      theta_update]
    ring
  rcases sgn_cases (localField W p i - θ i) h0 with ⟨h1, h2⟩ | ⟨h1, h2⟩
  · have hpi : p i = -1 := by
      rcases hp i with hp1 | hp1
      · exact absurd (hp1.trans h1.symm) hne
      · exact hp1
    rw [hE, h1, hpi]
    nlinarith [h2]
  · have hpi : p i = 1 := by
      rcases hp i with hp1 | hp1
      · exact hp1
      · exact absurd (hp1.trans h1.symm) hne
    rw [hE, h1, hpi]
    nlinarith [h2]

theorem hop_update_cases {n : ℕ} (W : Fin n → Fin n → ℚ) (θ : Fin n → ℚ)
    (hsym : ∀ a b, W a b = W b a) (hdiag : ∀ j, W j j = 0)
    (st : (Fin n → ℚ) × Bool) (i : Fin n) (hp : hop_valid st.1) :
    hop_update W θ st i = st ∨
      (hop_valid (hop_update W θ st i).1 ∧
        (hop_update W θ st i).2 = false ∧
        hop_energy W θ (hop_update W θ st i).1 <
          hop_energy W θ st.1) := by
  by_cases h0 : sgn (localField W st.1 i - θ i) = 0
  · exact Or.inl (by rw [hop_update, if_pos h0])
  · by_cases heq : st.1 i = sgn (localField W st.1 i - θ i)
    · exact Or.inl (by rw [hop_update, if_neg h0, if_pos heq])
    · right
      have hred : hop_update W θ st i =
          (Function.update st.1 i (sgn (localField W st.1 i - θ i)),
            false) := by
        rw [hop_update, if_neg h0, if_neg heq]
      rw [hred]
      refine ⟨?_, rfl, ?_⟩
      · intro j
        show Function.update st.1 i (sgn (localField W st.1 i - θ i)) j =
            1 ∨
          Function.update st.1 i (sgn (localField W st.1 i - θ i)) j = -1
        by_cases hj : j = i
        · subst hj
          rw [Function.update_same]
          rcases sgn_cases _ h0 with ⟨h1, _⟩ | ⟨h1, _⟩
          · exact Or.inl h1
          · exact Or.inr h1
        · rw [Function.update_noteq hj]
          exact hp j
      · exact hop_energy_flip W θ st.1 i hsym hdiag hp h0 heq

theorem hop_pass_aux {n : ℕ} (W : Fin n → Fin n → ℚ) (θ : Fin n → ℚ)
    (hsym : ∀ a b, W a b = W b a) (hdiag : ∀ j, W j j = 0) :
    ∀ (ord : List (Fin n)) (p : Fin n → ℚ) (b : Bool), hop_valid p →
      hop_valid (ord.foldl (hop_update W θ) (p, b)).1 ∧
        (((ord.foldl (hop_update W θ) (p, b)).1 = p ∧
          (ord.foldl (hop_update W θ) (p, b)).2 = b) ∨
         ((ord.foldl (hop_update W θ) (p, b)).2 = false ∧
          hop_energy W θ (ord.foldl (hop_update W θ) (p, b)).1 <
            hop_energy W θ p)) := by
  intro ord
  induction ord with
  | nil => intro p b hp; exact ⟨hp, Or.inl ⟨rfl, rfl⟩⟩
  | cons i rest ih =>
      intro p b hp
      rw [List.foldl_cons]
      rcases hop_update_cases W θ hsym hdiag (p, b) i hp
        with he | ⟨hv, hf, hlt⟩
      · rw [he]
        exact ih p b hp
      · have hpair : hop_update W θ (p, b) i =
            ((hop_update W θ (p, b) i).1, false) := by
          rw [← hf]
        rw [hpair]
        obtain ⟨rv, rrest⟩ := ih (hop_update W θ (p, b) i).1 false hv
        refine ⟨rv, Or.inr ?_⟩
        rcases rrest with ⟨hq, hb2⟩ | ⟨hb2, hlt2⟩
        · exact ⟨hb2, by rw [hq]; exact hlt⟩
        · exact ⟨hb2, lt_trans hlt2 hlt⟩

theorem hop_measure_lt {n : ℕ} (W : Fin n → Fin n → ℚ) (θ : Fin n → ℚ)
    (p p' : Fin n → ℚ) (hv' : hop_valid p')
    (hlt : hop_energy W θ p' < hop_energy W θ p) :
    hop_measure W θ p' < hop_measure W θ p := by
  have hsub : ((Fintype.piFinset
      (fun _ : Fin n => ({1, -1} : Finset ℚ))).filter
        (fun q => hop_energy W θ q < hop_energy W θ p')) ⊆
      ((Fintype.piFinset (fun _ : Fin n => ({1, -1} : Finset ℚ))).filter
        (fun q => hop_energy W θ q < hop_energy W θ p)) := by
    intro q hq
    rw [Finset.mem_filter] at *
    exact ⟨hq.1, lt_trans hq.2 hlt⟩
  have hmem : p' ∈ ((Fintype.piFinset
      (fun _ : Fin n => ({1, -1} : Finset ℚ))).filter
        (fun q => hop_energy W θ q < hop_energy W θ p)) := by
    rw [Finset.mem_filter]
    refine ⟨Fintype.mem_piFinset.mpr (fun j => ?_), hlt⟩
    rcases hv' j with h | h <;> simp [h]
  have hnot : p' ∉ ((Fintype.piFinset
      (fun _ : Fin n => ({1, -1} : Finset ℚ))).filter
        (fun q => hop_energy W θ q < hop_energy W θ p')) := by
    rw [Finset.mem_filter]
    rintro ⟨_, hlt'⟩
    exact lt_irrefl _ hlt'
  exact Finset.card_lt_card
    ((Finset.ssubset_iff_of_subset hsub).mpr ⟨p', hmem, hnot⟩)

theorem hop_run_terminates {n : ℕ} (W : Fin n → Fin n → ℚ)
    (θ : Fin n → ℚ) (ords : ℕ → List (Fin n))
    (hsym : ∀ a b, W a b = W b a) (hdiag : ∀ j, W j j = 0) :
    ∀ (fuel : ℕ) (p : Fin n → ℚ) (k : ℕ), hop_valid p →
      hop_measure W θ p < fuel →
      ∃ q, hop_run W θ ords k fuel p = some q ∧
        ∃ m, hop_pass W θ (ords m) q = (q, true) := by
  intro fuel
  induction fuel with
  | zero => intro p k hp hm; exact absurd hm (Nat.not_lt_zero _)
  | succ f ih =>
      intro p k hp hm
      obtain ⟨hv, hcases⟩ := hop_pass_aux W θ hsym hdiag (ords k) p true hp
      rcases hcases with ⟨hq, hb⟩ | ⟨hb, hlt⟩
      · refine ⟨((ords k).foldl (hop_update W θ) (p, true)).1, ?_, k, ?_⟩
        · show (if ((ords k).foldl (hop_update W θ) (p, true)).2 then
              some ((ords k).foldl (hop_update W θ) (p, true)).1
            else hop_run W θ ords (k + 1) f
              ((ords k).foldl (hop_update W θ) (p, true)).1) =
            some ((ords k).foldl (hop_update W θ) (p, true)).1
          rw [hb]
          rfl
        · have hr : ((ords k).foldl (hop_update W θ) (p, true)) =
              (((ords k).foldl (hop_update W θ) (p, true)).1, true) :=
            Prod.ext rfl hb
          show hop_pass W θ (ords k)
              (((ords k).foldl (hop_update W θ) (p, true)).1) =
            (((ords k).foldl (hop_update W θ) (p, true)).1, true)
          rw [hq]
          exact hr.trans (by rw [hq])
      · have hm' : hop_measure W θ
            ((ords k).foldl (hop_update W θ) (p, true)).1 < f := by
          have h1 := hop_measure_lt W θ p _ hv hlt
          omega
        obtain ⟨q, hrun, m, hm2⟩ :=
          ih ((ords k).foldl (hop_update W θ) (p, true)).1 (k + 1) hv hm'
        refine ⟨q, ?_, m, hm2⟩
        show (if ((ords k).foldl (hop_update W θ) (p, true)).2 then
            some ((ords k).foldl (hop_update W θ) (p, true)).1
          else hop_run W θ ords (k + 1) f
            ((ords k).foldl (hop_update W θ) (p, true)).1) = some q
        rw [hb]
        simpa using hrun

theorem hop_train_symm_aux {n : ℕ} :
    ∀ (pats : List (Fin n → Bool)) (W : Fin n → Fin n → ℚ),
      (∀ a b, W a b = W b a) → ∀ a b,
      (pats.foldl
        (fun W x => hop_train_one W (fun i => bool_to_sign (x i))) W) a b =
      (pats.foldl
        (fun W x => hop_train_one W (fun i => bool_to_sign (x i))) W)
        b a := by
  intro pats
  induction pats with
  | nil => intro W hW a b; exact hW a b
  | cons v rest ih =>
      intro W hW a b
      rw [List.foldl_cons]
      apply ih
      intro a b
      rw [hop_train_one, hop_train_one, hW a b]
      ring

theorem hop_train_symm {n : ℕ} (pats : List (Fin n → Bool)) :
    ∀ a b, hop_train pats a b = hop_train pats b a :=
  hop_train_symm_aux pats (fun _ _ => 0) (fun _ _ => rfl)

theorem hop_stop_sym_diag {n : ℕ} (W : Fin n → Fin n → ℚ)
    (hsym : ∀ a b, W a b = W b a) :
    (∀ a b, hop_stop W a b = hop_stop W b a) ∧
      ∀ j, hop_stop W j j = 0 := by
  constructor
  · intro a b
    by_cases h : a = b
    · subst h; rfl
    · rw [hop_stop, hop_stop]
      simp only [if_neg h, if_neg (Ne.symm h)]
      exact hsym a b
  · intro j
    simp [hop_stop]

/-- C6: for every weight matrix obtainable from
`DiscreteHopfieldClassifier` training followed by `_stop_training` (a
symmetric rational matrix with zero diagonal), every threshold vector, every
stream of unit-visit orders (covering the shuffled and unshuffled cases) and
every input pattern, the asynchronous relaxation loop of `_label_one`
terminates: some finite fuel makes `hop_label_one` return a pattern, and the
relaxed bipolar pattern admits a full pass in which no unit flips (a pass
whose `has_converged` flag stays `true`). -/
theorem claim_C6_hopfield_relaxation_terminates {n : ℕ}
    (pats : List (Fin n → Bool)) (θ : Fin n → ℚ)
    (ords : ℕ → List (Fin n)) (x : Fin n → Bool) :
    ∃ fuel q,
      hop_label_one (hop_stop (hop_train pats)) θ ords fuel x = some q ∧
      ∃ p', hop_run (hop_stop (hop_train pats)) θ ords 0 fuel
          (fun i => bool_to_sign (x i)) = some p' ∧
        ∃ m, hop_pass (hop_stop (hop_train pats)) θ (ords m) p' =
          (p', true) := by
  obtain ⟨hsym, hdiag⟩ :=
    hop_stop_sym_diag (hop_train pats) (hop_train_symm pats)
  have hp0 : hop_valid (fun i => bool_to_sign (x i)) := by
    intro i
    by_cases h : x i <;> simp [bool_to_sign, h]
  obtain ⟨q, hrun, m, hm⟩ :=
    hop_run_terminates (hop_stop (hop_train pats)) θ ords hsym hdiag
      (hop_measure (hop_stop (hop_train pats)) θ
        (fun i => bool_to_sign (x i)) + 1)
      (fun i => bool_to_sign (x i)) 0 hp0 (Nat.lt_succ_self _)
  refine ⟨hop_measure (hop_stop (hop_train pats)) θ
      (fun i => bool_to_sign (x i)) + 1,
    fun i => sign_to_bool (q i), ?_, q, hrun, m, hm⟩
  rw [hop_label_one, hrun]
  rfl

theorem akeys_nodup_abump {K : Type} [DecidableEq K] (d : List (K × ℕ))
    (k : K) (h : (d.map Prod.fst).Nodup) :
    ((abump d k).map Prod.fst).Nodup := by
  rw [akeys_abump]
  by_cases hm : k ∈ d.map Prod.fst
  · simpa [hm] using h
  · rw [if_neg hm]
    simp [List.nodup_append, h, hm]

theorem sum_map_bump_key {K : Type} [DecidableEq K] :
    ∀ (keys : List K), keys.Nodup → ∀ l₀ ∈ keys,
      ∀ (g g' : K → ℚ), (∀ l, l ≠ l₀ → g' l = g l) → g' l₀ = g l₀ + 1 →
      (keys.map g').sum = (keys.map g).sum + 1 := by
  intro keys
  induction keys with
  | nil => intro _ l₀ h; simp at h
  | cons k rest ih =>
      intro hnd l₀ hmem g g' hne hl
      rw [List.map_cons, List.map_cons, List.sum_cons, List.sum_cons]
      by_cases hk : k = l₀
      · subst hk
        have hrest : rest.map g' = rest.map g :=
          List.map_congr_left (fun a ha => hne a
            (fun hak => (List.nodup_cons.mp hnd).1 (hak ▸ ha)))
        rw [hl, hrest]
        ring
      · have hmem' : l₀ ∈ rest := by
          rcases List.mem_cons.mp hmem with h | h
          · exact absurd h.symm hk
          · exact h
        rw [hne k hk,
          ih (List.nodup_cons.mp hnd).2 l₀ hmem' g g' hne hl]
        ring

theorem sum_map_div {K : Type} :
    ∀ (keys : List K) (g : K → ℚ) (c : ℚ),
      (keys.map (fun k => g k / c)).sum = (keys.map g).sum / c := by
  intro keys
  induction keys with
  | nil => intro g c; simp
  | cons k rest ih =>
      intro g c
      rw [List.map_cons, List.map_cons, List.sum_cons, List.sum_cons,
        ih g c, add_div]

theorem markov_joint_sum_aux {L : Type} [DecidableEq L] :
    ∀ (pairs : List (List ℚ × L)) (st : MState L),
      (st.labels.map Prod.fst).Nodup →
      (∀ l, l ∉ st.labels.map Prod.fst →
        ∀ f, alookup st.connections (f, l) = none) →
      (∀ f, ((st.labels.map Prod.fst).map
          (fun l => jointD st f l)).sum = featD st f) →
      (((pairs.foldl (fun s p => mLearn s p.1 p.2) st).labels.map
          Prod.fst).Nodup ∧
       (∀ l, l ∉ (pairs.foldl (fun s p => mLearn s p.1 p.2)
            st).labels.map Prod.fst →
         ∀ f, alookup (pairs.foldl (fun s p => mLearn s p.1 p.2)
            st).connections (f, l) = none) ∧
       (∀ f, (((pairs.foldl (fun s p => mLearn s p.1 p.2) st).labels.map
            Prod.fst).map
          (fun l => jointD (pairs.foldl (fun s p => mLearn s p.1 p.2) st)
            f l)).sum =
          featD (pairs.foldl (fun s p => mLearn s p.1 p.2) st) f)) := by
  intro pairs
  induction pairs with
  | nil => intro st h1 h2 h3; exact ⟨h1, h2, h3⟩
  | cons pr rest ih =>
      intro st h1 h2 h3
      rw [List.foldl_cons]
      apply ih
      · exact akeys_nodup_abump st.labels pr.2 h1
      · intro l hl f
        have hl2 : ¬(l ∈ st.labels.map Prod.fst ∨ l = pr.2) :=
          fun hc => hl ((mem_keys_abump st.labels l pr.2).mpr hc)
        push_neg at hl2
        show alookup (abump st.connections (pr.1, pr.2)) (f, l) = none
        rw [alookup_abump_ne st.connections (f, l) (pr.1, pr.2)
          (fun hc => hl2.2 (congrArg Prod.snd hc))]
        exact h2 l hl2.1 f
      · intro f
        show (((abump st.labels pr.2).map Prod.fst).map
            (fun l => jointD (mLearn st pr.1 pr.2) f l)).sum =
          featD (mLearn st pr.1 pr.2) f
        by_cases hf : f = pr.1
        · subst hf
          have hfeat : featD (mLearn st pr.1 pr.2) pr.1 =
              featD st pr.1 + 1 := by
            show (((alookup (abump st.features pr.1) pr.1).getD 0 :
              ℕ) : ℚ) = _
            rw [alookup_abump_self]
            rw [featD]
            push_cast [Option.getD_some]
            ring
          have hne : ∀ l, l ≠ pr.2 →
              jointD (mLearn st pr.1 pr.2) pr.1 l = jointD st pr.1 l := by
            intro l hl
            show (((alookup (abump st.connections (pr.1, pr.2))
              (pr.1, l)).getD 0 : ℕ) : ℚ) = _
            rw [alookup_abump_ne st.connections (pr.1, l) (pr.1, pr.2)
              (fun hc => hl (congrArg Prod.snd hc))]
            rfl
          have hbump : jointD (mLearn st pr.1 pr.2) pr.1 pr.2 =
              jointD st pr.1 pr.2 + 1 := by
            show (((alookup (abump st.connections (pr.1, pr.2))
              (pr.1, pr.2)).getD 0 : ℕ) : ℚ) = _
            rw [alookup_abump_self]
            rw [jointD]
            push_cast [Option.getD_some]
            ring
          rw [akeys_abump]
          by_cases hm : pr.2 ∈ st.labels.map Prod.fst
          · rw [if_pos hm,
              sum_map_bump_key (st.labels.map Prod.fst) h1 pr.2 hm
                (fun l => jointD st pr.1 l)
                (fun l => jointD (mLearn st pr.1 pr.2) pr.1 l) hne hbump,
              h3 pr.1, hfeat]
          · rw [if_neg hm, List.map_append, List.sum_append]
            have hmap : (st.labels.map Prod.fst).map
                (fun l => jointD (mLearn st pr.1 pr.2) pr.1 l) =
                (st.labels.map Prod.fst).map
                  (fun l => jointD st pr.1 l) :=
              List.map_congr_left (fun l hlmem => hne l
                (fun hc => hm (hc ▸ hlmem)))
            have hzero : jointD st pr.1 pr.2 = 0 := by
              rw [jointD, h2 pr.2 hm pr.1]
              rfl
            rw [hmap, h3 pr.1, hfeat]
            simp [hbump, hzero]
        · have hfeat : featD (mLearn st pr.1 pr.2) f = featD st f := by
            show (((alookup (abump st.features pr.1) f).getD 0 : ℕ) : ℚ) = _
            rw [alookup_abump_ne st.features f pr.1 hf]
            rfl
          have hsame : ∀ l, jointD (mLearn st pr.1 pr.2) f l =
              jointD st f l := by
            intro l
            show (((alookup (abump st.connections (pr.1, pr.2))
              (f, l)).getD 0 : ℕ) : ℚ) = _
            rw [alookup_abump_ne st.connections (f, l) (pr.1, pr.2)
              (fun hc => hf (congrArg Prod.fst hc))]
            rfl
          rw [akeys_abump]
          by_cases hm : pr.2 ∈ st.labels.map Prod.fst
          · rw [if_pos hm,
              List.map_congr_left (fun l _ => hsame l), h3 f, hfeat]
          · rw [if_neg hm, List.map_append, List.sum_append,
              List.map_congr_left (fun l _ => hsame l), h3 f, hfeat]
            have hzero : jointD st f pr.2 = 0 := by
              rw [jointD, h2 pr.2 hm f]
              rfl
            simp [hsame pr.2, hzero]

/-- In the exact rational embedding, the probability dict returned by
`_prob_one` for an observed feature always sums to exactly 1: each value
collapses to `joint_count / feature_count`, and the joint counts over all
observed labels total the feature count.  The spec's "not guaranteed to sum
to 1" can therefore only refer to IEEE floating-point rounding. -/
theorem markov_rational_prob_sum_one {L : Type} [DecidableEq L]
    (pairs : List (List ℚ × L)) (f : List ℚ)
    (h : alookup (mTrainPairs pairs).features f ≠ none)
    (res : List (L × ℚ))
    (hres : mProbOne (mTrainPairs pairs) f = .ok res) :
    (res.map Prod.snd).sum = 1 := by
  obtain ⟨nF, hF⟩ := Option.ne_none_iff_exists'.mp h
  have hok : mProbOne (mTrainPairs pairs) f = .ok
      ((mTrainPairs pairs).labels.map (fun lc => (lc.1,
        (jointD (mTrainPairs pairs) f lc.1 /
          labelD (mTrainPairs pairs) lc.1) *
        (labelD (mTrainPairs pairs) lc.1 /
          ((mTrainPairs pairs).ntotal_connections : ℚ)) /
        (featD (mTrainPairs pairs) f /
          ((mTrainPairs pairs).ntotal_connections : ℚ))))) := by
    rw [mProbOne, hF]
    exact mapM_ok_of_forall _ _ _
      (fun lc hlc => mProbBody_ok (mTrainPairs pairs) f nF lc
        (minv_trained pairs) hF hlc)
  rw [hok] at hres
  have hres2 := (Except.ok.injEq _ _).mp hres
  rw [← hres2, List.map_map]
  show (((mTrainPairs pairs).labels).map (fun lc =>
    (jointD (mTrainPairs pairs) f lc.1 /
      labelD (mTrainPairs pairs) lc.1) *
    (labelD (mTrainPairs pairs) lc.1 /
      ((mTrainPairs pairs).ntotal_connections : ℚ)) /
    (featD (mTrainPairs pairs) f /
      ((mTrainPairs pairs).ntotal_connections : ℚ)))).sum = 1
  have hmm : (((mTrainPairs pairs).labels).map (fun lc =>
      (jointD (mTrainPairs pairs) f lc.1 /
        labelD (mTrainPairs pairs) lc.1) *
      (labelD (mTrainPairs pairs) lc.1 /
        ((mTrainPairs pairs).ntotal_connections : ℚ)) /
      (featD (mTrainPairs pairs) f /
        ((mTrainPairs pairs).ntotal_connections : ℚ)))) =
      (((mTrainPairs pairs).labels.map Prod.fst).map (fun l =>
      (jointD (mTrainPairs pairs) f l /
        labelD (mTrainPairs pairs) l) *
      (labelD (mTrainPairs pairs) l /
        ((mTrainPairs pairs).ntotal_connections : ℚ)) /
      (featD (mTrainPairs pairs) f /
        ((mTrainPairs pairs).ntotal_connections : ℚ)))) := by
    rw [List.map_map]
    rfl
  rw [hmm]
  have hnFpos := (minv_trained pairs).2 f nF hF
  have hval : ∀ l ∈ (mTrainPairs pairs).labels.map Prod.fst,
      (jointD (mTrainPairs pairs) f l / labelD (mTrainPairs pairs) l) *
      (labelD (mTrainPairs pairs) l /
        ((mTrainPairs pairs).ntotal_connections : ℚ)) /
      (featD (mTrainPairs pairs) f /
        ((mTrainPairs pairs).ntotal_connections : ℚ)) =
      jointD (mTrainPairs pairs) f l / featD (mTrainPairs pairs) f := by
    intro l hl
    obtain ⟨c, hc⟩ := alookup_isSome_of_mem_keys _ _ hl
    have hc1 : 1 ≤ c := (minv_trained pairs).1 l c hc
    have hlab : labelD (mTrainPairs pairs) l ≠ 0 := by
      rw [labelD, hc]
      exact_mod_cast Nat.cast_ne_zero.mpr (by omega)
    have hnt : (((mTrainPairs pairs).ntotal_connections : ℕ) : ℚ) ≠ 0 :=
      Nat.cast_ne_zero.mpr (by omega)
    field_simp
  rw [List.map_congr_left hval, sum_map_div]
  have hJ2 : (((mTrainPairs pairs).labels.map Prod.fst).map
      (fun l => jointD (mTrainPairs pairs) f l)).sum =
      featD (mTrainPairs pairs) f :=
    (markov_joint_sum_aux pairs (mInit L) (by simp [mInit])
      (fun _ _ _ => rfl) (fun _ => by simp [mInit, featD, alookup])).2.2 f
  rw [hJ2]
  have hfne : featD (mTrainPairs pairs) f ≠ 0 := by
    rw [featD, hF]
    exact_mod_cast Nat.cast_ne_zero.mpr (by omega)
  exact div_self hfne
